import Mathlib

/-!
Verification of the Content Selection Engine of the LinkedIn content pipeline
(`processor.py`, `calendar_tracker.py`, `generator.py`, `config.py`).

The Python dict-based records are embedded as Lean structures; optional dict
keys (accessed with dict.get) become Option fields.  Python floats are
modelled by exact rationals: every numeric value handled by the engine is a
small ratio of machine integers, and at every comparison performed on the
inputs used here the rational comparison and the IEEE double comparison
agree.  Python's stable sort is modelled by insertion sort, which has the
same (unique) stable-sort result.  The stdlib difflib.SequenceMatcher used
by the deduplicator is embedded in full from its reference implementation,
including the autojunk heuristic, since the dedup claims depend on it.
-/

namespace Engine

/-! ## Configuration (config.py) -/

def MAX_SAME_CATEGORY_STREAK : Nat := 2

def MAX_SAME_PERSONA_STREAK : Nat := 3

def SOURCE_COOLDOWN_POSTS : Nat := 3

def DRAFT_COUNT : Nat := 5

/-- DEDUP_THRESHOLD = 0.65 as an exact rational. -/
def DEDUP_THRESHOLD : ℚ := mkRat 13 20

/-! ## Data model

An Article is a dict built upstream; the core reads title, summary, content,
category, source and total_score.  category, source and total_score are read
with dict.get and may be absent. -/

structure Article where
  title : String
  summary : String
  content : String
  category : Option String
  source : Option String
  total_score : Option ℚ
  deriving DecidableEq

/-- A post_history.json entry, all keys read with dict.get (possibly absent). -/
structure Post where
  date : Option String
  category : Option String
  persona : Option String
  source : Option String
  deriving DecidableEq

/-- The history document: a dict with a "posts" list. -/
structure History where
  posts : List Post
  deriving DecidableEq

/-! ## difflib.SequenceMatcher (used by processor.title_similarity)

Embedded from the CPython reference implementation, specialised to
isjunk=None (as both call sites use), so the junk set bjunk is empty and
the junk-extension loops of find_longest_match are no-ops and are omitted.
Strings are handled as lists of characters; char order is code-point order.
-/

/-- The ascending list of positions of c in b (the b2j chain for c before
the autojunk filter). -/
def positionsOf (b : List Char) (c : Char) : List Nat :=
  (List.range b.length).filter (fun j => b.getD j ' ' == c)

/-- b2j with the autojunk heuristic of SequenceMatcher.__chain_b: when b has
at least 200 elements, characters occurring more than len(b)/100 + 1 times
are dropped from b2j (they become "popular" and cannot seed a match). -/
def b2jOf (b : List Char) (c : Char) : List Nat :=
  let ps := positionsOf b c
  if 200 ≤ b.length ∧ b.length / 100 + 1 < ps.length then [] else ps

/-- Proof auxiliary: the character c is dropped from b2j by the autojunk
heuristic of s (the condition of b2jOf). -/
def popChar (s : List Char) (c : Char) : Prop :=
  200 ≤ s.length ∧ s.length / 100 + 1 < (positionsOf s c).length

instance (s : List Char) (c : Char) : Decidable (popChar s c) :=
  inferInstanceAs (Decidable (_ ∧ _))

/-- Proof auxiliary: the length of the maximal run of autojunk-eligible
positions of s ending at j (positions whose characters keep their b2j
chains). -/
def eligRun (s : List Char) : Nat → Nat
  | 0 => if popChar s (s.getD 0 ' ') then 0 else 1
  | j + 1 => if popChar s (s.getD (j + 1) ' ') then 0 else eligRun s j + 1

/-- The inner loop of find_longest_match over the b2j chain of a[i]:
builds newj2len from j2len and updates the running best block.  A j below
blo is skipped, a j at or past bhi ends the loop (the chain is ascending).
In Python j2len.get(j-1, 0) at j = 0 looks up key -1 and yields 0. -/
def innerLoop (j2len : Nat → Nat) (blo bhi i : Nat) :
    List Nat → (Nat → Nat) → Nat × Nat × Nat → (Nat → Nat) × (Nat × Nat × Nat)
  | [], newj2len, best => (newj2len, best)
  | j :: js, newj2len, best =>
    if j < blo then innerLoop j2len blo bhi i js newj2len best
    else if bhi ≤ j then (newj2len, best)
    else
      let k := (if j = 0 then 0 else j2len (j - 1)) + 1
      let newj2len' : Nat → Nat := fun j' => if j' = j then k else newj2len j'
      let best' := if best.2.2 < k then (i + 1 - k, j + 1 - k, k) else best
      innerLoop j2len blo bhi i js newj2len' best'

/-- The outer loop of find_longest_match over i in range(alo, ahi),
counting down the remaining steps. -/
def outerLoop (a : List Char) (b2j : Char → List Nat) (blo bhi : Nat) :
    Nat → Nat → (Nat → Nat) → Nat × Nat × Nat → Nat × Nat × Nat
  | _, 0, _, best => best
  | i, steps + 1, j2len, best =>
    let r := innerLoop j2len blo bhi i (b2j (a.getD i ' ')) (fun _ => 0) best
    outerLoop a b2j blo bhi (i + 1) steps r.1 r.2

/-- Extension of the best block downwards by equal elements (the first
while loop after the main loop; the junk variant is a no-op here).  The
fuel besti bounds the number of iterations. -/
def extendLower (a b : List Char) (alo blo : Nat) :
    Nat → Nat × Nat × Nat → Nat × Nat × Nat
  | 0, best => best
  | fuel + 1, (besti, bestj, bestsize) =>
    if alo < besti ∧ blo < bestj ∧ a.getD (besti - 1) ' ' == b.getD (bestj - 1) ' ' then
      extendLower a b alo blo fuel (besti - 1, bestj - 1, bestsize + 1)
    else (besti, bestj, bestsize)

/-- Extension of the best block upwards by equal elements (the second
while loop; the junk variant is a no-op here). -/
def extendUpper (a b : List Char) (ahi bhi : Nat) :
    Nat → Nat × Nat × Nat → Nat × Nat × Nat
  | 0, best => best
  | fuel + 1, (besti, bestj, bestsize) =>
    if besti + bestsize < ahi ∧ bestj + bestsize < bhi ∧
        a.getD (besti + bestsize) ' ' == b.getD (bestj + bestsize) ' ' then
      extendUpper a b ahi bhi fuel (besti, bestj, bestsize + 1)
    else (besti, bestj, bestsize)

/-- SequenceMatcher.find_longest_match(alo, ahi, blo, bhi) with isjunk=None. -/
def find_longest_match (a b : List Char) (alo ahi blo bhi : Nat) : Nat × Nat × Nat :=
  let main := outerLoop a (b2jOf b) blo bhi alo (ahi - alo) (fun _ => 0) (alo, blo, 0)
  extendUpper a b ahi bhi ahi (extendLower a b alo blo main.1 main)

/-- Sum of the sizes of all matching blocks found by get_matching_blocks:
the recorded block plus recursion into the region before it and the region
after it.  The queue order and the merging of adjacent blocks do not change
the sum; the fuel strictly exceeds the recursion depth. -/
def matchesAux (a b : List Char) : Nat → Nat × Nat × Nat × Nat → Nat
  | 0, _ => 0
  | fuel + 1, (alo, ahi, blo, bhi) =>
    let r := find_longest_match a b alo ahi blo bhi
    if r.2.2 = 0 then 0
    else
      r.2.2 +
        (if alo < r.1 ∧ blo < r.2.1 then matchesAux a b fuel (alo, r.1, blo, r.2.1) else 0) +
        (if r.1 + r.2.2 < ahi ∧ r.2.1 + r.2.2 < bhi then
          matchesAux a b fuel (r.1 + r.2.2, ahi, r.2.1 + r.2.2, bhi) else 0)

/-- Total number of matching elements between a and b. -/
def matchesOf (a b : List Char) : Nat :=
  matchesAux a b (a.length + b.length + 1) (0, a.length, 0, b.length)

/-- SequenceMatcher.ratio(): 2.0 * matches / (len(a) + len(b)), and 1.0 when
both sequences are empty. -/
def ratio (a b : List Char) : ℚ :=
  if a.length + b.length = 0 then 1 else mkRat (2 * matchesOf a b) (a.length + b.length)

/-! ## processor.py -/

/-- processor.title_similarity: SequenceMatcher(None, a.lower(), b.lower()).ratio().
Char.toLower models str.lower on the ASCII titles handled here. -/
def title_similarity (a b : String) : ℚ :=
  ratio (a.data.map Char.toLower) (b.data.map Char.toLower)

/-- Word splitter for strip_html: characters accumulate into the current
word (kept reversed); whitespace closes it. -/
def wordsAux : List Char → List Char → List (List Char)
  | [], cur => if cur.isEmpty then [] else [cur.reverse]
  | c :: cs, cur =>
    if c.isWhitespace then
      (if cur.isEmpty then wordsAux cs [] else cur.reverse :: wordsAux cs [])
    else wordsAux cs (c :: cur)

/-- processor.strip_html restricted to tag-free text: the HTML-tag removal
is done by the external BeautifulSoup collaborator (out of the core's
scope); on text without markup get_text is the identity and what remains
is re.sub(r"\s+", " ", text).strip(), i.e. whitespace-run collapsing plus
trimming, with the empty-input guard of the source. -/
def strip_html (text : String) : String :=
  if text = "" then "" else ⟨List.intercalate [' '] (wordsAux text.data [])⟩

/-- processor.content_snippet: strip_html of content (or summary when
content is falsy), first 200 characters, lower-cased. -/
def content_snippet (a : Article) : List Char :=
  ((strip_html (if a.content ≠ "" then a.content else a.summary)).data.take 200).map
    Char.toLower

/-- Exact rational subtraction in kernel-computable form (Rat.sub is
irreducible); ratSub_eq below proves it equal to subtraction on ℚ. -/
def ratSub (a b : ℚ) : ℚ :=
  mkRat (a.num * b.den - b.num * a.den) (a.den * b.den)

/-- One candidate-against-kept comparison of processor.deduplicate: title
similarity at or above the threshold is a duplicate; in the borderline band
[threshold - 0.15, threshold) nonempty content snippets with similarity at
least 0.6 make a duplicate. -/
def isDupOf (threshold : ℚ) (article kept : Article) : Bool :=
  let sim := title_similarity article.title kept.title
  if threshold ≤ sim then true
  else if ratSub threshold (mkRat 3 20) ≤ sim then
    let sa := content_snippet article
    let sb := content_snippet kept
    if sa ≠ [] ∧ sb ≠ [] then decide (mkRat 3 5 ≤ ratio sa sb) else false
  else false

/-- The accumulator loop of processor.deduplicate: an incoming article is
kept iff it duplicates none of the already-kept articles. -/
def dedupGo (threshold : ℚ) : List Article → List Article → List Article
  | uniq, [] => uniq
  | uniq, article :: rest =>
    if uniq.any (fun kept => isDupOf threshold article kept) then
      dedupGo threshold uniq rest
    else dedupGo threshold (uniq ++ [article]) rest

/-- processor.deduplicate with the threshold as a parameter (the source
reads the module constant DEDUP_THRESHOLD; the spec quantifies over it). -/
def dedupWith (threshold : ℚ) (articles : List Article) : List Article :=
  dedupGo threshold [] articles

/-- processor.deduplicate at the configured threshold. -/
def deduplicate (articles : List Article) : List Article :=
  dedupWith DEDUP_THRESHOLD articles

/-- The in-place cleaning of one article in processor.process_articles:
title, summary and content are overwritten with their stripped forms. -/
def clean_article (a : Article) : Article :=
  { a with
    title := strip_html a.title
    summary := strip_html a.summary
    content := strip_html a.content }

/-- processor.process_articles: clean every article in place, then
deduplicate. -/
def process_articles (articles : List Article) : List Article :=
  deduplicate (articles.map clean_article)

/-- State-passing reading of process_articles: the returned pair is the
result together with the final contents of the caller's article list,
whose elements were mutated in place by the cleaning loop. -/
def process_articlesS (articles : List Article) : List Article × List Article :=
  let cleaned := articles.map clean_article
  (deduplicate cleaned, cleaned)

/-- Freshness invariant of the dedup loop: each element of the second list
duplicates nothing in the accumulated kept list nor any element before it. -/
inductive FreshList (threshold : ℚ) : List Article → List Article → Prop where
  | nil (uniq : List Article) : FreshList threshold uniq []
  | cons (uniq : List Article) (a : Article) (rest : List Article)
      (hnew : uniq.any (fun kept => isDupOf threshold a kept) = false)
      (htail : FreshList threshold (uniq ++ [a]) rest) :
      FreshList threshold uniq (a :: rest)

/-! ## calendar_tracker.py -/

/-- Lexicographic string order by code points, as Python compares the
date-string sort keys. -/
def strLe : List Char → List Char → Bool
  | [], _ => true
  | _ :: _, [] => false
  | a :: as, b :: bs =>
    if a.toNat < b.toNat then true
    else if b.toNat < a.toNat then false
    else strLe as bs

/-- The sort key of calendar_tracker.get_last_n_posts: p.get("date", ""). -/
def dateKey (p : Post) : String :=
  p.date.getD ""

/-- The descending-by-date order used for "last N posts": p may come before
q when q's key is at most p's.  Python's sorted(..., reverse=True) is a
stable descending sort. -/
def postDescRel (p q : Post) : Prop :=
  strLe (dateKey q).data (dateKey p).data = true

instance : DecidableRel postDescRel :=
  fun _ _ => inferInstanceAs (Decidable (_ = true))

/-- The sorted(history["posts"], key=..., reverse=True) expression:
a stable descending sort, modelled by insertion sort (every stable sort
produces this same list). -/
def sorted_posts (posts : List Post) : List Post :=
  List.insertionSort postDescRel posts

/-- calendar_tracker.get_last_n_posts: the first n entries of the post list
sorted descending by date. -/
def get_last_n_posts (history : History) (n : Nat) : List Post :=
  (sorted_posts history.posts).take n

/-- calendar_tracker.would_break_category_rule: all(...) over the recent
window if the window is nonempty, else False.  Python compares
p.get("category") (None when absent) to the category string, and
None == s is False. -/
def would_break_category_rule (history : History) (category : String) : Bool :=
  let recent := get_last_n_posts history MAX_SAME_CATEGORY_STREAK
  if recent.isEmpty then false
  else recent.all (fun p => p.category == some category)

/-- calendar_tracker.would_break_persona_rule: explicitly false when the
recent window is shorter than the streak length. -/
def would_break_persona_rule (history : History) (persona : String) : Bool :=
  let recent := get_last_n_posts history MAX_SAME_PERSONA_STREAK
  if recent.length < MAX_SAME_PERSONA_STREAK then false
  else recent.all (fun p => p.persona == some persona)

/-- calendar_tracker.is_source_on_cooldown: any recent post with this
source. -/
def is_source_on_cooldown (history : History) (source : String) : Bool :=
  (get_last_n_posts history SOURCE_COOLDOWN_POSTS).any (fun p => p.source == some source)

/-- The outcomes of the open+json.load I/O inside load_history: the file
may be missing (FileNotFoundError from open), its bytes may fail UTF-8
decoding (UnicodeDecodeError raised when json.load reads the text file),
its text may fail JSON parsing (json.JSONDecodeError), or a document is
produced. -/
inductive ReadOutcome where
  | fileNotFound
  | unicodeDecodeError
  | jsonDecodeError
  | ok (h : History)
  deriving DecidableEq

/-- An exception that load_history lets escape. -/
inductive PyExc where
  | unicodeDecodeError
  deriving DecidableEq

/-- calendar_tracker.load_history: the try/except catches exactly
FileNotFoundError and json.JSONDecodeError and returns the empty history
for them; any other exception of the read - in particular the
UnicodeDecodeError of a byte-corrupted file - is not caught and
propagates, so the function raises (the Except.error case). -/
def load_history (result : ReadOutcome) : Except PyExc History :=
  match result with
  | .fileNotFound => .ok { posts := [] }
  | .jsonDecodeError => .ok { posts := [] }
  | .unicodeDecodeError => .error .unicodeDecodeError
  | .ok h => .ok h

/-! ## generator.py: select_stories -/

/-- config.DAY_TOPIC_WEIGHTS: per-weekday category multipliers (0=Monday).
DAY_TOPIC_WEIGHTS.get(today, empty) for a key outside 0..4 is empty. -/
def DAY_TOPIC_WEIGHTS (day : Nat) : List (String × ℚ) :=
  match day with
  | 0 => [("AI in Sales", mkRat 3 2), ("Sales", mkRat 13 10)]
  | 1 => [("AI", mkRat 3 2), ("AI in eCommerce", mkRat 13 10)]
  | 2 => [("eCommerce", mkRat 3 2), ("Email Marketing", mkRat 13 10)]
  | 3 => [("Behavioural Science", mkRat 3 2), ("AI", mkRat 6 5)]
  | 4 => [("AI in Sales", mkRat 13 10), ("Behavioural Science", mkRat 3 2)]
  | _ => []

/-- weights.get(category, 1.0) for the day's multiplier table. -/
def weight_for (day : Nat) (category : String) : ℚ :=
  match (DAY_TOPIC_WEIGHTS day).find? (fun kv => kv.1 == category) with
  | some kv => kv.2
  | none => 1

/-- The scored list of select_stories: each article paired with
total_score * day-of-week multiplier (total_score missing reads as 0). -/
def scored_of (today : Nat) (articles : List Article) : List (Article × ℚ) :=
  articles.map (fun a => (a, a.total_score.getD 0 * weight_for today (a.category.getD "")))

/-- The descending-by-weighted-score order of scored.sort(key=...,
reverse=True). -/
def scoreDescRel (x y : Article × ℚ) : Prop :=
  y.2 ≤ x.2

instance : DecidableRel scoreDescRel :=
  fun x y => inferInstanceAs (Decidable (y.2 ≤ x.2))

/-- The stable descending sort of the scored list, modelled by insertion
sort. -/
def sort_scored (today : Nat) (articles : List Article) : List (Article × ℚ) :=
  List.insertionSort scoreDescRel (scored_of today articles)

/-- The first (strict) pass of select_stories: stop at count; skip when the
category was already used unless the result is one short of count; skip on
the category-streak check; skip on the source cooldown; otherwise admit and
record the category.  Python's count - 1 at count = 0 is -1 and the length
test is then false, as it is for truncated Nat subtraction. -/
def strictLoop (history : History) (count : Nat) :
    List (Article × ℚ) → List Article → List String → List Article
  | [], selected, _ => selected
  | (article, _) :: rest, selected, usedCats =>
    if count ≤ selected.length then selected
    else
      let category := article.category.getD ""
      let source := article.source.getD ""
      if usedCats.contains category ∧ selected.length < count - 1 then
        strictLoop history count rest selected usedCats
      else if would_break_category_rule history category then
        strictLoop history count rest selected usedCats
      else if is_source_on_cooldown history source then
        strictLoop history count rest selected usedCats
      else strictLoop history count rest (selected ++ [article]) (category :: usedCats)

/-- The second (relaxed) pass of select_stories: admit any article not
already selected, with no category or history checks, until count. -/
def relaxedLoop (count : Nat) : List (Article × ℚ) → List Article → List Article
  | [], selected => selected
  | (article, _) :: rest, selected =>
    if count ≤ selected.length then selected
    else if article ∈ selected then relaxedLoop count rest selected
    else relaxedLoop count rest (selected ++ [article])

/-- generator.select_stories.  datetime.now().weekday() is external input,
passed as today; count defaults to DRAFT_COUNT at the call site. -/
def select_stories (today : Nat) (articles : List Article) (history : History)
    (count : Nat) : List Article :=
  let sorted := sort_scored today articles
  let selected := strictLoop history count sorted [] []
  let selected2 := if selected.length < count then relaxedLoop count sorted selected
    else selected
  selected2.take count

/-! ## generator.py: assign_personas -/

/-- One persona of config.PERSONAS: its name and ordered preference list
(description and tone are opaque to the core). -/
structure PersonaInfo where
  name : String
  preferred_categories : List String
  deriving DecidableEq

/-- config.PERSONAS in declaration order. -/
def PERSONAS : List PersonaInfo :=
  [⟨"The eCommerce Observer", ["eCommerce", "AI in eCommerce", "Email Marketing"]⟩,
   ⟨"The Honest AI User", ["AI", "AI in Sales", "AI in eCommerce"]⟩,
   ⟨"The Sales Realist", ["Sales", "AI in Sales"]⟩,
   ⟨"The Human", ["Behavioural Science", "Sales", "eCommerce"]⟩]

/-- list(PERSONAS.keys()). -/
def persona_names : List String :=
  PERSONAS.map (·.name)

/-- The affinity score of assign_personas: 2 when the category is in the
persona's preference list, upgraded to 3 when it is the first preference,
else 0 (the [0] access happens only inside the membership test). -/
def affinity_score (info : PersonaInfo) (category : String) : Int :=
  if info.preferred_categories.contains category then
    (if info.preferred_categories.head? = some category then 3 else 2)
  else 0

/-- The best-persona loop of assign_personas over a persona list: skip on
the persona-streak check or when already used in this batch; keep the
strictly highest score. -/
def pickBestGo (history : History) (used : List String) (category : String) :
    List PersonaInfo → Option String × Int → Option String × Int
  | [], best => best
  | info :: rest, best =>
    if would_break_persona_rule history info.name then
      pickBestGo history used category rest best
    else if used.contains info.name then
      pickBestGo history used category rest best
    else if best.2 < affinity_score info category then
      pickBestGo history used category rest (some info.name, affinity_score info category)
    else pickBestGo history used category rest best

/-- The best-persona search of assign_personas: personas in declaration
order, starting from best_persona = None, best_score = -1. -/
def pickBest (history : History) (used : List String) (category : String) :
    Option String × Int :=
  pickBestGo history used category PERSONAS (none, -1)

/-- The per-article choice of assign_personas, with its two fallbacks:
first unused persona in declaration order, then the first declared
persona.  Persona names are nonempty strings, so Python's "if not
best_persona" is a None test. -/
def choose_persona (history : History) (used : List String) (category : String) :
    String :=
  match (pickBest history used category).1 with
  | some b => b
  | none =>
    match persona_names.find? (fun n => !(used.contains n)) with
    | some b => b
    | none => persona_names.headD ""

/-- The loop of assign_personas: one persona per article, appended to both
the assignment list and the used list. -/
def assignLoop (history : History) : List Article → List String → List String → List String
  | [], assignments, _ => assignments
  | article :: rest, assignments, used =>
    let p := choose_persona history used (article.category.getD "")
    assignLoop history rest (assignments ++ [p]) (used ++ [p])

/-- generator.assign_personas. -/
def assign_personas (articles : List Article) (history : History) : List String :=
  assignLoop history articles [] []

/-! ## State-passing readings of the history-consuming functions

Each Python function below receives the history object and reads it; the
embedding returns the value of the history object after the call next to
the result.  sorted() allocates a fresh list, so get_last_n_posts hands its
history back unchanged, and every caller threads the object through. -/

/-- get_last_n_posts with the history object threaded through: sorted()
copies, the object is returned as received. -/
def get_last_n_postsS (history : History) (n : Nat) : List Post × History :=
  ((sorted_posts history.posts).take n, history)

/-- would_break_category_rule with the history threaded through. -/
def would_break_category_ruleS (history : History) (category : String) :
    Bool × History :=
  let r := get_last_n_postsS history MAX_SAME_CATEGORY_STREAK
  ((if r.1.isEmpty then false else r.1.all (fun p => p.category == some category)), r.2)

/-- would_break_persona_rule with the history threaded through. -/
def would_break_persona_ruleS (history : History) (persona : String) :
    Bool × History :=
  let r := get_last_n_postsS history MAX_SAME_PERSONA_STREAK
  ((if r.1.length < MAX_SAME_PERSONA_STREAK then false
    else r.1.all (fun p => p.persona == some persona)), r.2)

/-- is_source_on_cooldown with the history threaded through. -/
def is_source_on_cooldownS (history : History) (source : String) :
    Bool × History :=
  let r := get_last_n_postsS history SOURCE_COOLDOWN_POSTS
  (r.1.any (fun p => p.source == some source), r.2)

/-- The strict pass with the history threaded through each check it
performs (checks are reached in the source's order and only as needed). -/
def strictLoopS (count : Nat) :
    List (Article × ℚ) → List Article → List String → History → List Article × History
  | [], selected, _, h => (selected, h)
  | (article, _) :: rest, selected, usedCats, h =>
    if count ≤ selected.length then (selected, h)
    else
      let category := article.category.getD ""
      let source := article.source.getD ""
      if usedCats.contains category ∧ selected.length < count - 1 then
        strictLoopS count rest selected usedCats h
      else
        let c := would_break_category_ruleS h category
        if c.1 then strictLoopS count rest selected usedCats c.2
        else
          let s := is_source_on_cooldownS c.2 source
          if s.1 then strictLoopS count rest selected usedCats s.2
          else strictLoopS count rest (selected ++ [article]) (category :: usedCats) s.2

/-- select_stories with the history threaded through; the relaxed pass and
the final truncation never touch the history. -/
def select_storiesS (today : Nat) (articles : List Article) (history : History)
    (count : Nat) : List Article × History :=
  let sorted := sort_scored today articles
  let r := strictLoopS count sorted [] [] history
  let selected2 := if r.1.length < count then relaxedLoop count sorted r.1 else r.1
  (selected2.take count, r.2)

/-- The best-persona loop with the history threaded through (the streak
check runs for every persona in order). -/
def pickBestGoS (used : List String) (category : String) :
    List PersonaInfo → Option String × Int → History → (Option String × Int) × History
  | [], best, h => (best, h)
  | info :: rest, best, h =>
    let w := would_break_persona_ruleS h info.name
    if w.1 then pickBestGoS used category rest best w.2
    else if used.contains info.name then pickBestGoS used category rest best w.2
    else if best.2 < affinity_score info category then
      pickBestGoS used category rest (some info.name, affinity_score info category) w.2
    else pickBestGoS used category rest best w.2

/-- The best-persona search with the history threaded through. -/
def pickBestS (used : List String) (category : String) (history : History) :
    (Option String × Int) × History :=
  pickBestGoS used category PERSONAS (none, -1) history

/-- choose_persona with the history threaded through. -/
def choose_personaS (used : List String) (category : String) (history : History) :
    String × History :=
  let r := pickBestS used category history
  (match r.1.1 with
   | some b => b
   | none =>
     match persona_names.find? (fun n => !(used.contains n)) with
     | some b => b
     | none => persona_names.headD "", r.2)

/-- The assign_personas loop with the history threaded through. -/
def assignLoopS : List Article → List String → List String → History → List String × History
  | [], assignments, _, h => (assignments, h)
  | article :: rest, assignments, used, h =>
    let r := choose_personaS used (article.category.getD "") h
    assignLoopS rest (assignments ++ [r.1]) (used ++ [r.1]) r.2

/-- assign_personas with the history threaded through. -/
def assign_personasS (articles : List Article) (history : History) :
    List String × History :=
  assignLoopS articles [] [] history

/-! ## Theorems -/

/-- ratSub agrees with subtraction on ℚ. -/
theorem ratSub_eq (a b : ℚ) : ratSub a b = a - b := by
  have ha : ((a.den : ℚ)) ≠ 0 := Nat.cast_ne_zero.mpr a.den_nz
  have hb : ((b.den : ℚ)) ≠ 0 := Nat.cast_ne_zero.mpr b.den_nz
  rw [ratSub, Rat.mkRat_eq_div]
  push_cast
  conv_rhs => rw [← Rat.num_div_den a, ← Rat.num_div_den b]
  field_simp
  ring

/-! ### Deduplicator invariants (C3, C4) -/

/-- Running the dedup loop over a list that is fresh for the accumulator
appends it unchanged. -/
theorem dedupGo_of_fresh {threshold : ℚ} :
    ∀ {uniq ys : List Article}, FreshList threshold uniq ys →
      dedupGo threshold uniq ys = uniq ++ ys := by
  intro uniq ys h
  induction h with
  | nil u => simp [dedupGo]
  | cons u a rest hnew _ ih => simp [dedupGo, hnew, ih]

/-- The dedup loop always appends a list that is fresh for its
accumulator. -/
theorem dedupGo_fresh (threshold : ℚ) :
    ∀ (xs uniq : List Article), ∃ zs,
      dedupGo threshold uniq xs = uniq ++ zs ∧ FreshList threshold uniq zs := by
  intro xs
  induction xs with
  | nil => exact fun uniq => ⟨[], by simp [dedupGo], .nil uniq⟩
  | cons a rest ih =>
    intro uniq
    by_cases h : uniq.any (fun kept => isDupOf threshold a kept) = true
    · obtain ⟨zs, hz, hf⟩ := ih uniq
      exact ⟨zs, by simp [dedupGo, h, hz], hf⟩
    · have h' : uniq.any (fun kept => isDupOf threshold a kept) = false :=
        Bool.not_eq_true _ ▸ h
      obtain ⟨zs, hz, hf⟩ := ih (uniq ++ [a])
      refine ⟨a :: zs, ?_, .cons uniq a zs h' hf⟩
      simp [dedupGo, h', hz]

/-- dedupWith is idempotent for every threshold. -/
theorem dedupWith_idem (threshold : ℚ) (articles : List Article) :
    dedupWith threshold (dedupWith threshold articles) = dedupWith threshold articles := by
  obtain ⟨zs, hz, hf⟩ := dedupGo_fresh threshold articles []
  have h1 : dedupWith threshold articles = zs := by simpa [dedupWith] using hz
  rw [h1]
  have h2 := dedupGo_of_fresh hf
  simpa [dedupWith] using h2

/-- C3: the Deduplicator is idempotent; for every article list xs,
deduplicate (deduplicate xs) = deduplicate xs. -/
theorem deduplicate_idempotent (articles : List Article) :
    deduplicate (deduplicate articles) = deduplicate articles :=
  dedupWith_idem DEDUP_THRESHOLD articles

/-! ### C1: the category-streak check on a short history -/

/-- C1: the claim says the category-streak check returns false whenever the
history has fewer than MAX_SAME_CATEGORY_STREAK entries; the code returns
true for a one-entry history whose single post shares the category, because
its guard only special-cases the empty window (the persona-rule sibling has
the intended length guard). -/
theorem category_rule_fires_below_streak :
    would_break_category_rule
      { posts := [{ date := some "2025-01-01", category := some "AI",
                    persona := none, source := none }] } "AI" = true
    ∧ [({ date := some "2025-01-01", category := some "AI",
          persona := none, source := none } : Post)].length <
        MAX_SAME_CATEGORY_STREAK := by
  constructor
  · decide
  · decide

/-! ### C8: load_history on a missing or corrupted document -/

/-- C8: the claim says load_history never raises on an absent or corrupted
history document; but the except clause catches only FileNotFoundError and
json.JSONDecodeError, so the UnicodeDecodeError raised while reading a
byte-corrupted (non-UTF-8) file propagates and load_history DOES raise.
The missing-file and JSON-syntax failures do return the empty history, on
which every streak and cooldown check reports no violation. -/
theorem load_history_uncaught_decode_error :
    load_history ReadOutcome.unicodeDecodeError =
      Except.error PyExc.unicodeDecodeError
    ∧ load_history ReadOutcome.fileNotFound = Except.ok { posts := [] }
    ∧ load_history ReadOutcome.jsonDecodeError = Except.ok { posts := [] }
    ∧ (∀ (c p s : String),
        would_break_category_rule { posts := [] } c = false ∧
        would_break_persona_rule { posts := [] } p = false ∧
        is_source_on_cooldown { posts := [] } s = false) := by
  refine ⟨rfl, rfl, rfl, fun c p s => ⟨?_, ?_, ?_⟩⟩ <;>
    simp [would_break_category_rule, would_break_persona_rule,
      is_source_on_cooldown, get_last_n_posts, sorted_posts,
      MAX_SAME_PERSONA_STREAK, List.insertionSort]

/-! ### Lexicographic order facts and sort stability (C7) -/

theorem strLe_refl : ∀ a : List Char, strLe a a = true := by
  intro a
  induction a with
  | nil => rfl
  | cons c cs ih => simp [strLe, ih]

theorem strLe_total : ∀ a b : List Char, strLe a b = true ∨ strLe b a = true := by
  intro a
  induction a with
  | nil => intro b; left; rfl
  | cons x xs ih =>
    intro b
    cases b with
    | nil => right; rfl
    | cons y ys =>
      rcases Nat.lt_trichotomy x.toNat y.toNat with h | h | h
      · left; simp [strLe, h]
      · have h1 : ¬ x.toNat < y.toNat := by omega
        have h2 : ¬ y.toNat < x.toNat := by omega
        rcases ih ys with hr | hr
        · left; simp [strLe, h1, h2, hr]
        · right; simp [strLe, h1, h2, hr]
      · right; simp [strLe, h]

theorem strLe_trans :
    ∀ a b c : List Char, strLe a b = true → strLe b c = true → strLe a c = true := by
  intro a
  induction a with
  | nil => intro b c _ _; rfl
  | cons x xs ih =>
    intro b c hab hbc
    cases b with
    | nil => simp [strLe] at hab
    | cons y ys =>
      cases c with
      | nil => simp [strLe] at hbc
      | cons z zs =>
        by_cases hxy : x.toNat < y.toNat <;> by_cases hyz : y.toNat < z.toNat
        · simp [strLe, show x.toNat < z.toNat by omega]
        · by_cases hzy : z.toNat < y.toNat
          · simp [strLe, hyz, hzy] at hbc
          · have hyz' : y.toNat = z.toNat := by omega
            simp [strLe, show x.toNat < z.toNat by omega]
        · by_cases hyx : y.toNat < x.toNat
          · simp [strLe, hxy, hyx] at hab
          · have hxy' : x.toNat = y.toNat := by omega
            simp [strLe, show x.toNat < z.toNat by omega]
        · by_cases hyx : y.toNat < x.toNat
          · simp [strLe, hxy, hyx] at hab
          · by_cases hzy : z.toNat < y.toNat
            · simp [strLe, hyz, hzy] at hbc
            · have h1 : ¬ x.toNat < z.toNat := by omega
              have h2 : ¬ z.toNat < x.toNat := by omega
              simp [strLe, hxy, hyx] at hab
              simp [strLe, hyz, hzy] at hbc
              simp [strLe, h1, h2, ih ys zs hab hbc]

theorem postDescRel_total : ∀ p q : Post, postDescRel p q ∨ postDescRel q p := by
  intro p q
  rcases strLe_total (dateKey q).data (dateKey p).data with h | h
  · exact Or.inl h
  · exact Or.inr h

theorem postDescRel_trans :
    ∀ p q r : Post, postDescRel p q → postDescRel q r → postDescRel p r := by
  intro p q r hpq hqr
  exact strLe_trans _ _ _ hqr hpq

/-- Filtering by one date key commutes with an ordered insertion: the
inserted element lands in front of its key class (stability of the
insertion). -/
theorem filter_orderedInsert (d : String) (p : Post) (l : List Post) :
    (List.orderedInsert postDescRel p l).filter (fun q => dateKey q == d) =
      if dateKey p == d then p :: l.filter (fun q => dateKey q == d)
      else l.filter (fun q => dateKey q == d) := by
  rw [List.orderedInsert_eq_take_drop, List.filter_append]
  by_cases hp : dateKey p == d
  · have htw : (l.takeWhile (fun b => decide ¬postDescRel p b)).filter
        (fun q => dateKey q == d) = [] := by
      rw [List.filter_eq_nil_iff]
      intro x hx
      have hpred := List.mem_takeWhile_imp hx
      have hnot : ¬ postDescRel p x := by simpa using hpred
      intro hxd
      apply hnot
      have hdx : dateKey x = d := by simpa using hxd
      have hdp : dateKey p = d := by simpa using hp
      show strLe (dateKey x).data (dateKey p).data = true
      rw [hdx, hdp]
      exact strLe_refl _
    rw [htw, List.filter_cons, if_pos (by simpa using hp), if_pos hp]
    simp only [List.nil_append, List.cons.injEq, true_and]
    conv_rhs => rw [← List.takeWhile_append_dropWhile
      (p := fun b => decide ¬postDescRel p b) (l := l)]
    rw [List.filter_append, htw, List.nil_append]
  · rw [List.filter_cons, if_neg (by simpa using hp), if_neg hp]
    conv_rhs => rw [← List.takeWhile_append_dropWhile
      (p := fun b => decide ¬postDescRel p b) (l := l)]
    rw [List.filter_append]

/-- Stability of the descending date sort: each date-key class of the
sorted list equals that class of the original list, in order. -/
theorem sorted_posts_stable (d : String) :
    ∀ l : List Post, (sorted_posts l).filter (fun q => dateKey q == d) =
      l.filter (fun q => dateKey q == d) := by
  intro l
  induction l with
  | nil => rfl
  | cons p l ih =>
    show (List.orderedInsert postDescRel p (sorted_posts l)).filter _ = _
    rw [filter_orderedInsert, List.filter_cons]
    by_cases hp : dateKey p == d
    · rw [if_pos hp, if_pos hp, ih]
    · rw [if_neg hp, if_neg hp, ih]

/-- C7: get_last_n_posts takes a prefix of length at most n of the post
list sorted descending by date; the sort is descending (every earlier
entry's key is at least every later one's), stable (each date-key class
keeps its original order), and a missing date gets the key "", the minimum,
so such entries sort as earliest and are taken last. -/
theorem get_last_n_posts_spec (history : History) (n : Nat) :
    get_last_n_posts history n = (sorted_posts history.posts).take n ∧
    (get_last_n_posts history n).length ≤ n ∧
    (sorted_posts history.posts).Pairwise postDescRel ∧
    (∀ d : String, (sorted_posts history.posts).filter (fun q => dateKey q == d) =
      history.posts.filter (fun q => dateKey q == d)) ∧
    (∀ (c pe s : Option String), dateKey ⟨none, c, pe, s⟩ = "") ∧
    (∀ (c pe s : Option String) (q : Post), postDescRel q ⟨none, c, pe, s⟩) := by
  haveI : IsTotal Post postDescRel := ⟨postDescRel_total⟩
  haveI : IsTrans Post postDescRel := ⟨postDescRel_trans⟩
  refine ⟨rfl, ?_, ?_, fun d => sorted_posts_stable d history.posts,
    fun c pe s => rfl, fun c pe s q => ?_⟩
  · simp [get_last_n_posts]
  · exact List.sorted_insertionSort postDescRel history.posts
  · show strLe (dateKey ⟨none, c, pe, s⟩).data (dateKey q).data = true
    rfl

/-! ### Selector size guarantee (C2) -/

/-- The strict pass only appends, and what it appends is a subsequence of
the scanned candidates. -/
theorem strictLoop_shape (history : History) (count : Nat) :
    ∀ (rest : List (Article × ℚ)) (sel : List Article) (used : List String),
      ∃ ex, strictLoop history count rest sel used = sel ++ ex ∧
        ex.Sublist (rest.map Prod.fst) := by
  intro rest
  induction rest with
  | nil => exact fun sel used => ⟨[], by simp [strictLoop], by simp⟩
  | cons x rest ih =>
    intro sel used
    obtain ⟨a, sc⟩ := x
    by_cases h0 : count ≤ sel.length
    · exact ⟨[], by simp [strictLoop, h0], by simp⟩
    · by_cases h1 : used.contains (a.category.getD "") = true ∧ sel.length < count - 1
      · obtain ⟨ex, he, hs⟩ := ih sel used
        refine ⟨ex, ?_, hs.cons _⟩
        show strictLoop history count ((a, sc) :: rest) sel used = sel ++ ex
        rw [strictLoop, if_neg h0, if_pos h1, he]
      · by_cases h2 : would_break_category_rule history (a.category.getD "") = true
        · obtain ⟨ex, he, hs⟩ := ih sel used
          refine ⟨ex, ?_, hs.cons _⟩
          show strictLoop history count ((a, sc) :: rest) sel used = sel ++ ex
          rw [strictLoop, if_neg h0, if_neg h1, if_pos h2, he]
        · by_cases h3 : is_source_on_cooldown history (a.source.getD "") = true
          · obtain ⟨ex, he, hs⟩ := ih sel used
            refine ⟨ex, ?_, hs.cons _⟩
            show strictLoop history count ((a, sc) :: rest) sel used = sel ++ ex
            rw [strictLoop, if_neg h0, if_neg h1, if_neg (by simpa using h2),
              if_pos h3, he]
          · obtain ⟨ex, he, hs⟩ := ih (sel ++ [a]) ((a.category.getD "") :: used)
            refine ⟨a :: ex, ?_, hs.cons₂ _⟩
            show strictLoop history count ((a, sc) :: rest) sel used = sel ++ a :: ex
            rw [strictLoop, if_neg h0, if_neg h1, if_neg (by simpa using h2),
              if_neg (by simpa using h3), he]
            simp

/-- The relaxed pass only appends, and what it appends is a subsequence of
the scanned candidates. -/
theorem relaxedLoop_shape (count : Nat) :
    ∀ (rest : List (Article × ℚ)) (sel : List Article),
      ∃ ex, relaxedLoop count rest sel = sel ++ ex ∧
        ex.Sublist (rest.map Prod.fst) := by
  intro rest
  induction rest with
  | nil => exact fun sel => ⟨[], by simp [relaxedLoop], by simp⟩
  | cons x rest ih =>
    intro sel
    obtain ⟨a, sc⟩ := x
    by_cases h0 : count ≤ sel.length
    · exact ⟨[], by simp [relaxedLoop, h0], by simp⟩
    · by_cases h1 : a ∈ sel
      · obtain ⟨ex, he, hs⟩ := ih sel
        exact ⟨ex, by simp [relaxedLoop, h0, h1, he], hs.cons _⟩
      · obtain ⟨ex, he, hs⟩ := ih (sel ++ [a])
        refine ⟨a :: ex, ?_, hs.cons₂ _⟩
        simp only [relaxedLoop, h0, if_false]
        rw [if_neg h1, he]
        simp

/-- When the relaxed pass still ends short of count, it has taken every
candidate on the list. -/
theorem relaxedLoop_reach (count : Nat) :
    ∀ (rest : List (Article × ℚ)) (sel : List Article),
      (relaxedLoop count rest sel).length < count →
      ∀ a ∈ rest.map Prod.fst, a ∈ relaxedLoop count rest sel := by
  intro rest
  induction rest with
  | nil => intro sel _ a ha; simp at ha
  | cons x rest ih =>
    intro sel hlen a ha
    obtain ⟨b, sc⟩ := x
    by_cases h0 : count ≤ sel.length
    · rw [show relaxedLoop count ((b, sc) :: rest) sel = sel by
        simp [relaxedLoop, h0]] at hlen
      omega
    · by_cases h1 : b ∈ sel
      · have hrw : relaxedLoop count ((b, sc) :: rest) sel = relaxedLoop count rest sel := by
          simp [relaxedLoop, h0, h1]
        rw [hrw] at hlen ⊢
        rw [List.map_cons] at ha
        rcases List.mem_cons.mp ha with heq | ha'
        · obtain ⟨ex, he, _⟩ := relaxedLoop_shape count rest sel
          rw [he, heq]; exact List.mem_append_left _ h1
        · exact ih sel hlen a ha'
      · have hrw : relaxedLoop count ((b, sc) :: rest) sel =
            relaxedLoop count rest (sel ++ [b]) := by
          simp [relaxedLoop, h0, h1]
        rw [hrw] at hlen ⊢
        rw [List.map_cons] at ha
        rcases List.mem_cons.mp ha with heq | ha'
        · obtain ⟨ex, he, _⟩ := relaxedLoop_shape count rest (sel ++ [b])
          rw [he, heq]
          exact List.mem_append_left _ (List.mem_append_right _ (by simp))
        · exact ih (sel ++ [b]) hlen a ha'

/-- The relaxed pass preserves distinctness: it appends only articles not
already selected. -/
theorem relaxedLoop_nodup (count : Nat) :
    ∀ (rest : List (Article × ℚ)) (sel : List Article),
      sel.Nodup → (relaxedLoop count rest sel).Nodup := by
  intro rest
  induction rest with
  | nil => intro sel h; simpa [relaxedLoop] using h
  | cons x rest ih =>
    intro sel hnd
    obtain ⟨b, sc⟩ := x
    by_cases h0 : count ≤ sel.length
    · simpa [relaxedLoop, h0] using hnd
    · by_cases h1 : b ∈ sel
      · rw [show relaxedLoop count ((b, sc) :: rest) sel = relaxedLoop count rest sel by
          simp [relaxedLoop, h0, h1]]
        exact ih sel hnd
      · rw [show relaxedLoop count ((b, sc) :: rest) sel =
            relaxedLoop count rest (sel ++ [b]) by simp [relaxedLoop, h0, h1]]
        refine ih (sel ++ [b]) ?_
        have : (b :: sel).Nodup := List.nodup_cons.mpr ⟨h1, hnd⟩
        exact ((List.perm_append_singleton b sel).nodup_iff).mpr this

/-- The article components of the sorted scored list are a permutation of
the candidate list. -/
theorem sort_scored_perm (today : Nat) (articles : List Article) :
    ((sort_scored today articles).map Prod.fst).Perm articles := by
  have h1 := (List.perm_insertionSort scoreDescRel (scored_of today articles)).map Prod.fst
  have h2 : (scored_of today articles).map Prod.fst = articles := by
    simp [scored_of, Function.comp_def]
  rw [h2] at h1
  simpa only [sort_scored] using h1

/-- C2: for a deduplicated (duplicate-free) candidate list the Selector
returns at most count articles, and returns fewer than count only when the
candidate list itself has fewer than count articles. -/
theorem select_stories_count_guarantee (today : Nat) (articles : List Article)
    (history : History) (count : Nat) (hnd : articles.Nodup) :
    (select_stories today articles history count).length ≤ count ∧
      ((select_stories today articles history count).length < count →
        articles.length < count) := by
  constructor
  · simp [select_stories]
  · intro hlt
    set sorted := sort_scored today articles with hsorted
    set s := strictLoop history count sorted [] [] with hs
    by_cases hshort : s.length < count
    · have hsel : select_stories today articles history count =
          (relaxedLoop count sorted s).take count := by
        simp only [select_stories, ← hsorted, ← hs, if_pos hshort]
      rw [hsel] at hlt
      have hrlen : (relaxedLoop count sorted s).length < count := by
        simpa using Nat.lt_of_le_of_lt (le_refl _)
          (by simpa [List.length_take] using hlt)
      have hreach := relaxedLoop_reach count sorted s hrlen
      have hperm := sort_scored_perm today articles
      have hsortednd : ((sort_scored today articles).map Prod.fst).Nodup :=
        (hperm.nodup_iff).mpr hnd
      have hsnd : s.Nodup := by
        obtain ⟨ex, he, hsub⟩ := strictLoop_shape history count sorted [] []
        rw [hs, he, List.nil_append]
        exact hsub.nodup hsortednd
      have hrnd : (relaxedLoop count sorted s).Nodup := relaxedLoop_nodup count sorted s hsnd
      have hsubset : (sorted.map Prod.fst) ⊆ relaxedLoop count sorted s := fun a ha =>
        hreach a ha
      have hle : (sorted.map Prod.fst).length ≤ (relaxedLoop count sorted s).length :=
        (List.subperm_of_subset hsortednd hsubset).length_le
      have harts : articles.length = (sorted.map Prod.fst).length := hperm.length_eq.symm
      omega
    · exfalso
      have hsel : select_stories today articles history count = s.take count := by
        simp only [select_stories, ← hsorted, ← hs, if_neg hshort]
      rw [hsel, List.length_take] at hlt
      omega

/-- Witness for C2 at a concrete duplicate-free candidate list. -/
theorem select_stories_count_guarantee_witness :
    ([⟨"t1", "", "", none, none, none⟩, ⟨"t2", "", "", none, none, none⟩] :
      List Article).Nodup ∧
    ((select_stories 0
        [⟨"t1", "", "", none, none, none⟩, ⟨"t2", "", "", none, none, none⟩]
        ⟨[]⟩ 1).length ≤ 1 ∧
      ((select_stories 0
          [⟨"t1", "", "", none, none, none⟩, ⟨"t2", "", "", none, none, none⟩]
          ⟨[]⟩ 1).length < 1 →
        ([⟨"t1", "", "", none, none, none⟩, ⟨"t2", "", "", none, none, none⟩] :
          List Article).length < 1)) :=
  ⟨by decide, select_stories_count_guarantee 0
    [⟨"t1", "", "", none, none, none⟩, ⟨"t2", "", "", none, none, none⟩]
    ⟨[]⟩ 1 (by decide)⟩

/-! ### The two selection passes (C6) -/

/-- C6: in the strict pass an article whose category was already used is
skipped exactly when the result is not one short of the target (at one
short, the valve lets it through to the remaining checks); and when the
strict pass ends short, select_stories runs the relaxed pass over the same
sorted order, which admits any not-yet-selected article with no category,
streak or cooldown checks, stopping only at the target or the end of the
candidates. -/
theorem select_stories_two_pass (history : History) (count : Nat) (a : Article)
    (sc : ℚ) (rest : List (Article × ℚ)) (sel : List Article) (used : List String)
    (today : Nat) (articles : List Article) :
    (sel.length < count →
      used.contains (a.category.getD "") = true →
      sel.length < count - 1 →
      strictLoop history count ((a, sc) :: rest) sel used =
        strictLoop history count rest sel used)
    ∧ (sel.length < count → sel.length = count - 1 →
        would_break_category_rule history (a.category.getD "") = false →
        is_source_on_cooldown history (a.source.getD "") = false →
        strictLoop history count ((a, sc) :: rest) sel used =
          strictLoop history count rest (sel ++ [a]) (a.category.getD "" :: used))
    ∧ (sel.length < count → a ∉ sel →
        relaxedLoop count ((a, sc) :: rest) sel = relaxedLoop count rest (sel ++ [a]))
    ∧ (sel.length < count → a ∈ sel →
        relaxedLoop count ((a, sc) :: rest) sel = relaxedLoop count rest sel)
    ∧ ((strictLoop history count (sort_scored today articles) [] []).length < count →
        select_stories today articles history count =
          (relaxedLoop count (sort_scored today articles)
            (strictLoop history count (sort_scored today articles) [] [])).take count) := by
  refine ⟨?_, ?_, ?_, ?_, ?_⟩
  · intro h0 hc hlen
    show strictLoop history count ((a, sc) :: rest) sel used =
      strictLoop history count rest sel used
    rw [strictLoop, if_neg (by omega), if_pos ⟨hc, hlen⟩]
  · intro h0 hlen hcat hsrc
    show strictLoop history count ((a, sc) :: rest) sel used =
      strictLoop history count rest (sel ++ [a]) (a.category.getD "" :: used)
    rw [strictLoop, if_neg (by omega),
      if_neg (fun h => absurd h.2 (by omega)),
      if_neg (by simpa using hcat), if_neg (by simpa using hsrc)]
  · intro h0 hm
    show relaxedLoop count ((a, sc) :: rest) sel = relaxedLoop count rest (sel ++ [a])
    rw [relaxedLoop, if_neg (by omega), if_neg hm]
  · intro h0 hm
    show relaxedLoop count ((a, sc) :: rest) sel = relaxedLoop count rest sel
    rw [relaxedLoop, if_neg (by omega), if_pos hm]
  · intro hshort
    simp only [select_stories, if_pos hshort]

/-- Witness for C6: each clause applied at concrete inputs (a skipped
repeat category, the valve at one short of target, both relaxed-pass
steps, and the strict-to-relaxed handover). -/
theorem select_stories_two_pass_witness :
    (strictLoop ⟨[]⟩ 3 [(⟨"ta", "", "", some "c1", none, none⟩, 0)]
        [⟨"tb", "", "", some "c0", none, none⟩] ["c1"] =
      strictLoop ⟨[]⟩ 3 [] [⟨"tb", "", "", some "c0", none, none⟩] ["c1"])
    ∧ (strictLoop ⟨[]⟩ 2 [(⟨"ta", "", "", some "c1", none, none⟩, 0)]
        [⟨"tb", "", "", some "c0", none, none⟩] ["c1"] =
      strictLoop ⟨[]⟩ 2 []
        ([⟨"tb", "", "", some "c0", none, none⟩] ++ [⟨"ta", "", "", some "c1", none, none⟩])
        ("c1" :: ["c1"]))
    ∧ (relaxedLoop 1 [(⟨"ta", "", "", some "c1", none, none⟩, 0)] [] =
      relaxedLoop 1 [] ([] ++ [⟨"ta", "", "", some "c1", none, none⟩]))
    ∧ (relaxedLoop 2 [(⟨"ta", "", "", some "c1", none, none⟩, 0)]
        [⟨"ta", "", "", some "c1", none, none⟩] =
      relaxedLoop 2 [] [⟨"ta", "", "", some "c1", none, none⟩])
    ∧ (select_stories 0 [] ⟨[]⟩ 1 =
      (relaxedLoop 1 (sort_scored 0 []) (strictLoop ⟨[]⟩ 1 (sort_scored 0 []) [] [])).take 1) :=
  ⟨(select_stories_two_pass ⟨[]⟩ 3 ⟨"ta", "", "", some "c1", none, none⟩ 0 []
      [⟨"tb", "", "", some "c0", none, none⟩] ["c1"] 0 []).1
      (by decide) (by decide) (by decide),
   (select_stories_two_pass ⟨[]⟩ 2 ⟨"ta", "", "", some "c1", none, none⟩ 0 []
      [⟨"tb", "", "", some "c0", none, none⟩] ["c1"] 0 []).2.1
      (by decide) (by decide) (by decide) (by decide),
   (select_stories_two_pass ⟨[]⟩ 1 ⟨"ta", "", "", some "c1", none, none⟩ 0 [] [] [] 0 []).2.2.1
      (by decide) (by decide),
   (select_stories_two_pass ⟨[]⟩ 2 ⟨"ta", "", "", some "c1", none, none⟩ 0 []
      [⟨"ta", "", "", some "c1", none, none⟩] [] 0 []).2.2.2.1
      (by decide) (by decide),
   (select_stories_two_pass ⟨[]⟩ 1 ⟨"ta", "", "", some "c1", none, none⟩ 0 [] [] [] 0 []).2.2.2.2
      (by decide)⟩

/-! ### Persona assignment (C5) -/

/-- Bool membership test unfolded (Python's "in" on the used list). -/
theorem contains_true_iff (l : List String) (a : String) :
    l.contains a = true ↔ a ∈ l :=
  List.elem_iff

/-- Any persona the best-persona loop settles on is unused in this batch
and is a configured persona name. -/
theorem pickBestGo_mem (history : History) (used : List String) (category : String) :
    ∀ (ps : List PersonaInfo) (best : Option String × Int),
      (∀ b, best.1 = some b → b ∉ used ∧ b ∈ persona_names) →
      (∀ info ∈ ps, info.name ∈ persona_names) →
      ∀ b, (pickBestGo history used category ps best).1 = some b →
        b ∉ used ∧ b ∈ persona_names := by
  intro ps
  induction ps with
  | nil => intro best hbest _ b hb; exact hbest b hb
  | cons info rest ih =>
    intro best hbest hmem b hb
    have hmem' : ∀ i ∈ rest, i.name ∈ persona_names := fun i hi =>
      hmem i (List.mem_cons_of_mem _ hi)
    by_cases h1 : would_break_persona_rule history info.name = true
    · rw [show pickBestGo history used category (info :: rest) best =
          pickBestGo history used category rest best by
        rw [pickBestGo, if_pos h1]] at hb
      exact ih best hbest hmem' b hb
    · by_cases h2 : used.contains info.name = true
      · rw [show pickBestGo history used category (info :: rest) best =
            pickBestGo history used category rest best by
          rw [pickBestGo, if_neg h1, if_pos h2]] at hb
        exact ih best hbest hmem' b hb
      · by_cases h3 : best.2 < affinity_score info category
        · rw [show pickBestGo history used category (info :: rest) best =
              pickBestGo history used category rest
                (some info.name, affinity_score info category) by
            rw [pickBestGo, if_neg h1, if_neg h2, if_pos h3]] at hb
          refine ih _ ?_ hmem' b hb
          intro b' hb'
          have hbe : info.name = b' := by simpa using hb'
          subst hbe
          refine ⟨?_, hmem info (List.mem_cons_self _ _)⟩
          intro hmemu
          exact h2 ((contains_true_iff used info.name).mpr hmemu)
        · rw [show pickBestGo history used category (info :: rest) best =
              pickBestGo history used category rest best by
            rw [pickBestGo, if_neg h1, if_neg h2, if_neg h3]] at hb
          exact ih best hbest hmem' b hb

/-- When some configured persona is still unused, the per-article choice
returns an unused configured persona. -/
theorem choose_persona_fresh (history : History) (used : List String)
    (category : String) (hex : ∃ n ∈ persona_names, n ∉ used) :
    choose_persona history used category ∉ used ∧
      choose_persona history used category ∈ persona_names := by
  unfold choose_persona
  cases hpick : (pickBest history used category).1 with
  | some b =>
    exact pickBestGo_mem history used category PERSONAS (none, -1)
      (fun b' hb' => by simp at hb') (fun _ hi => List.mem_map_of_mem _ hi) b hpick
  | none =>
    obtain ⟨n, hn, hnu⟩ := hex
    cases hfind : persona_names.find? (fun m => !(used.contains m)) with
    | some b =>
      constructor
      · have hpred := List.find?_some hfind
        intro hmem
        have : used.contains b = true := (contains_true_iff used b).mpr hmem
        rw [this] at hpred
        simp at hpred
      · exact List.mem_of_find?_eq_some hfind
    | none =>
      exfalso
      have hpred := List.find?_eq_none.mp hfind n hn
      simp only [Bool.not_eq_true', Bool.not_eq_false] at hpred
      exact hnu ((contains_true_iff used n).mp hpred)

/-- The assignment loop keeps its growing used list duplicate-free while
personas remain, and the assignments are exactly the used list it built. -/
theorem assignLoop_nodup (history : History) :
    ∀ (arts : List Article) (used : List String),
      used.Nodup → (∀ u ∈ used, u ∈ persona_names) →
      used.length + arts.length ≤ persona_names.length →
      (assignLoop history arts used used).Nodup := by
  intro arts
  induction arts with
  | nil => intro used hnd _ _; simpa [assignLoop] using hnd
  | cons a rest ih =>
    intro used hnd hsub hlen
    have hex : ∃ n ∈ persona_names, n ∉ used := by
      by_contra hall
      push_neg at hall
      have hsubn : persona_names ⊆ used := fun n hn => hall n hn
      have : persona_names.length ≤ used.length :=
        (List.subperm_of_subset (by decide) hsubn).length_le
      simp at hlen
      omega
    obtain ⟨hfresh, hmem⟩ :=
      choose_persona_fresh history used (a.category.getD "") hex
    show (assignLoop history rest
      (used ++ [choose_persona history used (a.category.getD "")])
      (used ++ [choose_persona history used (a.category.getD "")])).Nodup
    refine ih _ ?_ ?_ ?_
    · exact ((List.perm_append_singleton _ used).nodup_iff).mpr
        (List.nodup_cons.mpr ⟨hfresh, hnd⟩)
    · intro u hu
      rcases List.mem_append.mp hu with hu | hu
      · exact hsub u hu
      · rcases List.mem_singleton.mp hu with rfl
        exact hmem
    · simp only [List.length_append, List.length_singleton]
      simp at hlen ⊢
      omega

/-- C5: when the batch is no larger than the configured persona set, no
persona is assigned twice in the batch. -/
theorem assign_personas_no_repeat (articles : List Article) (history : History)
    (hlen : articles.length ≤ PERSONAS.length) :
    (assign_personas articles history).Nodup := by
  refine assignLoop_nodup history articles [] (by simp) (by simp) ?_
  simpa [persona_names] using hlen

/-- Witness for C5 at a concrete two-article batch. -/
theorem assign_personas_no_repeat_witness :
    ([⟨"t1", "", "", some "AI", none, none⟩, ⟨"t2", "", "", some "AI", none, none⟩] :
      List Article).length ≤ PERSONAS.length ∧
    (assign_personas
      [⟨"t1", "", "", some "AI", none, none⟩, ⟨"t2", "", "", some "AI", none, none⟩]
      ⟨[]⟩).Nodup :=
  ⟨by decide, assign_personas_no_repeat
    [⟨"t1", "", "", some "AI", none, none⟩, ⟨"t2", "", "", some "AI", none, none⟩]
    ⟨[]⟩ (by decide)⟩

/-! ### The history is never mutated (C10) -/

theorem get_last_n_postsS_eq (history : History) (n : Nat) :
    get_last_n_postsS history n = (get_last_n_posts history n, history) :=
  rfl

theorem would_break_category_ruleS_eq (history : History) (category : String) :
    would_break_category_ruleS history category =
      (would_break_category_rule history category, history) :=
  rfl

theorem would_break_persona_ruleS_eq (history : History) (persona : String) :
    would_break_persona_ruleS history persona =
      (would_break_persona_rule history persona, history) :=
  rfl

theorem is_source_on_cooldownS_eq (history : History) (source : String) :
    is_source_on_cooldownS history source =
      (is_source_on_cooldown history source, history) :=
  rfl

/-- The threaded strict pass returns the pure strict pass's result and
hands the history back unchanged. -/
theorem strictLoopS_eq (count : Nat) (history : History) :
    ∀ (rest : List (Article × ℚ)) (sel : List Article) (used : List String),
      strictLoopS count rest sel used history =
        (strictLoop history count rest sel used, history) := by
  intro rest
  induction rest with
  | nil => intro sel used; rfl
  | cons x rest ih =>
    intro sel used
    obtain ⟨a, sc⟩ := x
    simp only [strictLoopS, strictLoop, would_break_category_ruleS_eq,
      is_source_on_cooldownS_eq]
    split_ifs <;> simp [ih]

/-- The threaded best-persona loop returns the pure loop's result and hands
the history back unchanged. -/
theorem pickBestGoS_eq (used : List String) (category : String) (history : History) :
    ∀ (ps : List PersonaInfo) (best : Option String × Int),
      pickBestGoS used category ps best history =
        (pickBestGo history used category ps best, history) := by
  intro ps
  induction ps with
  | nil => intro best; rfl
  | cons info rest ih =>
    intro best
    simp only [pickBestGoS, pickBestGo, would_break_persona_ruleS_eq]
    split_ifs <;> simp [ih]

theorem choose_personaS_eq (used : List String) (category : String) (history : History) :
    choose_personaS used category history =
      (choose_persona history used category, history) := by
  rw [choose_personaS, choose_persona, pickBest, pickBestS, pickBestGoS_eq]

/-- The threaded assignment loop returns the pure assignments and hands the
history back unchanged. -/
theorem assignLoopS_eq (history : History) :
    ∀ (arts : List Article) (assignments used : List String),
      assignLoopS arts assignments used history =
        (assignLoop history arts assignments used, history) := by
  intro arts
  induction arts with
  | nil => intro assignments used; rfl
  | cons a rest ih =>
    intro assignments used
    rw [assignLoopS, assignLoop]
    simp only [choose_personaS_eq]
    rw [ih]

/-- C10: select_stories and assign_personas leave the history unchanged
(the nested checks sort a copy of the post list), and the threaded
readings return exactly the pure results. -/
theorem history_unchanged (today : Nat) (articles : List Article)
    (history : History) (count : Nat) :
    (select_storiesS today articles history count).2 = history ∧
    (select_storiesS today articles history count).1 =
      select_stories today articles history count ∧
    (assign_personasS articles history).2 = history ∧
    (assign_personasS articles history).1 = assign_personas articles history := by
  have hsel : select_storiesS today articles history count =
      (select_stories today articles history count, history) := by
    rw [select_storiesS, select_stories, strictLoopS_eq]
  have hass : assign_personasS articles history =
      (assign_personas articles history, history) := by
    rw [assign_personasS, assign_personas, assignLoopS_eq]
  rw [hsel, hass]
  exact ⟨rfl, rfl, rfl, rfl⟩

/-! ### SequenceMatcher on identical inputs (for C4)

On two copies of the same string shorter than the autojunk limit, the
longest-match search returns the whole string: the j2len chain along the
diagonal grows by one per outer step and nothing off-diagonal can beat it. -/

/-- One executed iteration of the inner loop (the chain entry j is inside
the window, as every entry of a full-range b2j chain is). -/
theorem innerLoop_step (J : Nat → Nat) (bhi i j : Nat) (js : List Nat)
    (cur : Nat → Nat) (b1 b2 b3 : Nat) (hj : j < bhi) :
    innerLoop J 0 bhi i (j :: js) cur (b1, b2, b3) =
      innerLoop J 0 bhi i js
        (fun j' => if j' = j then (if j = 0 then 0 else J (j - 1)) + 1 else cur j')
        (if b3 < (if j = 0 then 0 else J (j - 1)) + 1 then
          (i + 1 - ((if j = 0 then 0 else J (j - 1)) + 1),
           j + 1 - ((if j = 0 then 0 else J (j - 1)) + 1),
           (if j = 0 then 0 else J (j - 1)) + 1)
        else (b1, b2, b3)) := by
  rw [innerLoop, if_neg (Nat.not_lt_zero j), if_neg (by omega)]

/-- Run-length bound: a run ending at j has at most j + 1 positions. -/
theorem eligRun_le (s : List Char) : ∀ j, eligRun s j ≤ j + 1 := by
  intro j
  induction j with
  | zero => rw [eligRun]; split <;> omega
  | succ t ih => rw [eligRun]; split <;> omega

/-- A popular position ends no run. -/
theorem eligRun_pop {s : List Char} {j : Nat} (h : popChar s (s.getD j ' ')) :
    eligRun s j = 0 := by
  cases j with
  | zero => rw [eligRun, if_pos h]
  | succ t => rw [eligRun, if_pos h]

/-- An eligible position extends the run ending just before it. -/
theorem eligRun_not_pop {s : List Char} {j : Nat} (h : ¬ popChar s (s.getD j ' ')) :
    eligRun s j = (if j = 0 then 0 else eligRun s (j - 1)) + 1 := by
  cases j with
  | zero => rw [eligRun, if_neg h, if_pos rfl]
  | succ t =>
    rw [eligRun, if_neg h, if_neg (Nat.succ_ne_zero t)]
    rfl

/-- The run at an eligible position is nonempty. -/
theorem eligRun_pos {s : List Char} {j : Nat} (h : ¬ popChar s (s.getD j ' ')) :
    1 ≤ eligRun s j := by
  rw [eligRun_not_pop h]
  omega

/-- Membership in a position chain. -/
theorem mem_positionsOf {b : List Char} {c : Char} {j : Nat} :
    j ∈ positionsOf b c ↔ j < b.length ∧ b.getD j ' ' = c := by
  simp [positionsOf, List.mem_filter, List.mem_range]

/-- Position chains are strictly ascending. -/
theorem positionsOf_pairwise (b : List Char) (c : Char) :
    (positionsOf b c).Pairwise (· < ·) :=
  (List.pairwise_lt_range _).filter _

/-- A popular character's b2j chain is emptied by autojunk. -/
theorem b2jOf_pop {s : List Char} {c : Char} (h : popChar s c) :
    b2jOf s c = [] := by
  unfold popChar at h
  simp only [b2jOf]
  rw [if_pos h]

/-- A non-popular character keeps its full position chain. -/
theorem b2jOf_not_pop {s : List Char} {c : Char} (h : ¬ popChar s c) :
    b2jOf s c = positionsOf s c := by
  unfold popChar at h
  simp only [b2jOf]
  rw [if_neg h]

/-- After the diagonal entry of a chain has been processed at step i, the
best block (already at least the eligible run ending at i) never changes
again, and the produced chain map keeps both run bounds: every chain
counts eligible equal-character positions, so its length is bounded by the
eligible run ending at i on the a-side and at its own position on the
b-side. -/
theorem innerPostE (s : List Char) (i : Nat) (J : Nat → Nat)
    (hka : ∀ j, (if j = 0 then 0 else J (j - 1)) + 1 ≤ eligRun s i) :
    ∀ (js : List Nat) (cur : Nat → Nat) (b1 b3 : Nat),
      (∀ j ∈ js, i < j ∧ j < s.length) →
      (∀ j ∈ js, (if j = 0 then 0 else J (j - 1)) + 1 ≤ eligRun s j) →
      (∀ j, cur j ≤ eligRun s i) →
      (∀ j, cur j ≤ eligRun s j) →
      cur i = eligRun s i →
      eligRun s i ≤ b3 →
      (innerLoop J 0 s.length i js cur (b1, b1, b3)).2 = (b1, b1, b3)
      ∧ (innerLoop J 0 s.length i js cur (b1, b1, b3)).1 i = eligRun s i
      ∧ (∀ j, (innerLoop J 0 s.length i js cur (b1, b1, b3)).1 j ≤ eligRun s i)
      ∧ (∀ j, (innerLoop J 0 s.length i js cur (b1, b1, b3)).1 j ≤ eligRun s j) := by
  intro js
  induction js with
  | nil => intro cur b1 b3 _ _ hca hcb hci _; exact ⟨rfl, hci, hca, hcb⟩
  | cons j js ih =>
    intro cur b1 b3 hmem hkb hca hcb hci hb3
    obtain ⟨hij, hjn⟩ := hmem j (List.mem_cons_self _ _)
    have hkaj := hka j
    rw [innerLoop_step J s.length i j js cur b1 b1 b3 hjn,
      if_neg (by omega : ¬ b3 < (if j = 0 then 0 else J (j - 1)) + 1)]
    refine ih _ b1 b3 (fun x hx => hmem x (List.mem_cons_of_mem _ hx))
      (fun x hx => hkb x (List.mem_cons_of_mem _ hx)) ?_ ?_ ?_ hb3
    · intro x
      by_cases hx : x = j
      · rw [if_pos hx]
        exact hka j
      · rw [if_neg hx]
        exact hca x
    · intro x
      by_cases hx : x = j
      · rw [if_pos hx, hx]
        exact hkb j (List.mem_cons_self _ _)
      · rw [if_neg hx]
        exact hcb x
    · rw [if_neg (by omega : ¬ i = j)]
      exact hci

/-- Scanning a strictly ascending in-range chain that contains the
diagonal i keeps the best block on the diagonal: entries before i are
bounded by their own eligible runs (already dominated by the best size),
the diagonal sets exactly the run ending at i, and later entries cannot
exceed it. -/
theorem innerPreE (s : List Char) (i : Nat) (J : Nat → Nat)
    (hin : i < s.length)
    (hka : ∀ j, (if j = 0 then 0 else J (j - 1)) + 1 ≤ eligRun s i)
    (hkd : (if i = 0 then 0 else J (i - 1)) + 1 = eligRun s i) :
    ∀ (js : List Nat) (cur : Nat → Nat) (b1 b3 : Nat),
      js.Pairwise (· < ·) →
      (∀ j ∈ js, j < s.length) →
      i ∈ js →
      (∀ j ∈ js, (if j = 0 then 0 else J (j - 1)) + 1 ≤ eligRun s j) →
      (∀ j ∈ js, j < i → eligRun s j ≤ b3) →
      (∀ j, cur j ≤ eligRun s i) →
      (∀ j, cur j ≤ eligRun s j) →
      b1 + b3 ≤ s.length →
      ∃ c1 c3,
        (innerLoop J 0 s.length i js cur (b1, b1, b3)).2 = (c1, c1, c3)
        ∧ c1 + c3 ≤ s.length ∧ eligRun s i ≤ c3 ∧ b3 ≤ c3
        ∧ (innerLoop J 0 s.length i js cur (b1, b1, b3)).1 i = eligRun s i
        ∧ (∀ j, (innerLoop J 0 s.length i js cur (b1, b1, b3)).1 j ≤ eligRun s i)
        ∧ (∀ j, (innerLoop J 0 s.length i js cur (b1, b1, b3)).1 j ≤ eligRun s j) := by
  intro js
  induction js with
  | nil => intro cur b1 b3 _ _ hmem _ _ _ _ _; simp at hmem
  | cons j js ih =>
    intro cur b1 b3 hpw hbnd hmem hkb hC hca hcb hsum
    by_cases hji : j = i
    · subst hji
      rw [innerLoop_step J s.length j j js cur b1 b1 b3
        (hbnd j (List.mem_cons_self _ _)), hkd]
      have hrun_le : eligRun s j ≤ j + 1 := eligRun_le s j
      have hmems : ∀ x ∈ js, j < x ∧ x < s.length := fun x hx =>
        ⟨(List.pairwise_cons.mp hpw).1 x hx, hbnd x (List.mem_cons_of_mem _ hx)⟩
      have hkbs : ∀ x ∈ js, (if x = 0 then 0 else J (x - 1)) + 1 ≤ eligRun s x :=
        fun x hx => hkb x (List.mem_cons_of_mem _ hx)
      have hcas : ∀ x, (if x = j then eligRun s j else cur x) ≤ eligRun s j := by
        intro x
        by_cases hx : x = j
        · rw [if_pos hx]
        · rw [if_neg hx]
          exact hca x
      have hcbs : ∀ x, (if x = j then eligRun s j else cur x) ≤ eligRun s x := by
        intro x
        by_cases hx : x = j
        · rw [if_pos hx, hx]
        · rw [if_neg hx]
          exact hcb x
      have hcis : (if j = j then eligRun s j else cur j) = eligRun s j := by
        rw [if_pos rfl]
      by_cases hup : b3 < eligRun s j
      · rw [if_pos hup]
        have hpost := innerPostE s j J hka js _ (j + 1 - eligRun s j) (eligRun s j)
          hmems hkbs hcas hcbs hcis (le_refl _)
        exact ⟨j + 1 - eligRun s j, eligRun s j, hpost.1, by omega, le_refl _,
          by omega, hpost.2.1, hpost.2.2.1, hpost.2.2.2⟩
      · rw [if_neg hup]
        have hpost := innerPostE s j J hka js _ b1 b3
          hmems hkbs hcas hcbs hcis (by omega)
        exact ⟨b1, b3, hpost.1, hsum, by omega, le_refl _,
          hpost.2.1, hpost.2.2.1, hpost.2.2.2⟩
    · have hmem' : i ∈ js := by
        rcases List.mem_cons.mp hmem with h | h
        · exact absurd h.symm hji
        · exact h
      have hji' : j < i := (List.pairwise_cons.mp hpw).1 i hmem'
      have hkbj := hkb j (List.mem_cons_self _ _)
      have hCj := hC j (List.mem_cons_self _ _) hji'
      rw [innerLoop_step J s.length i j js cur b1 b1 b3
        (hbnd j (List.mem_cons_self _ _)),
        if_neg (by omega : ¬ b3 < (if j = 0 then 0 else J (j - 1)) + 1)]
      refine ih _ b1 b3 (List.pairwise_cons.mp hpw).2
        (fun x hx => hbnd x (List.mem_cons_of_mem _ hx)) hmem'
        (fun x hx => hkb x (List.mem_cons_of_mem _ hx))
        (fun x hx hxi => hC x (List.mem_cons_of_mem _ hx) hxi)
        ?_ ?_ hsum
      · intro x
        by_cases hx : x = j
        · rw [if_pos hx]
          exact hka j
        · rw [if_neg hx]
          exact hca x
      · intro x
        by_cases hx : x = j
        · rw [if_pos hx, hx]
          exact hkbj
        · rw [if_neg hx]
          exact hcb x

/-- The outer loop on two copies of s keeps the best block on the
diagonal, inside bounds, for any string (autojunk included: a popular
character wipes the chain map for that step, and chains only ever run
through eligible equal characters, so off-diagonal chains never beat the
diagonal). -/
theorem outerDiagE (s : List Char) :
    ∀ (steps m : Nat) (J : Nat → Nat) (b1 b3 : Nat),
      m + steps = s.length →
      (∀ x, J x ≤ (if m = 0 then 0 else eligRun s (m - 1))) →
      (∀ x, J x ≤ eligRun s x) →
      (m = 0 ∨ J (m - 1) = eligRun s (m - 1)) →
      (∀ j, j < m → eligRun s j ≤ b3) →
      b1 + b3 ≤ s.length →
      ∃ c1 c3, outerLoop s (b2jOf s) 0 s.length m steps J (b1, b1, b3) = (c1, c1, c3)
        ∧ c1 + c3 ≤ s.length := by
  intro steps
  induction steps with
  | zero =>
    intro m J b1 b3 _ _ _ _ _ hsum
    exact ⟨b1, b3, by rw [outerLoop], hsum⟩
  | succ st ih =>
    intro m J b1 b3 hm hJa hJb hJd hC hsum
    have hmlt : m < s.length := by omega
    by_cases hpop : popChar s (s.getD m ' ')
    · rw [outerLoop, b2jOf_pop hpop]
      have hstep : innerLoop J 0 s.length m [] (fun _ => 0) (b1, b1, b3) =
          (fun _ => 0, (b1, b1, b3)) := rfl
      rw [hstep]
      refine ih (m + 1) _ b1 b3 (by omega) (fun x => Nat.zero_le _)
        (fun x => Nat.zero_le _) (Or.inr ?_) ?_ hsum
      · show (0 : Nat) = eligRun s ((m + 1) - 1)
        rw [Nat.add_sub_cancel, eligRun_pop hpop]
      · intro j hj
        rcases Nat.lt_succ_iff_lt_or_eq.mp hj with h | h
        · exact hC j h
        · subst h
          rw [eligRun_pop hpop]
          exact Nat.zero_le _
    · have hka : ∀ j, (if j = 0 then 0 else J (j - 1)) + 1 ≤ eligRun s m := by
        intro j
        rw [eligRun_not_pop hpop]
        by_cases hj : j = 0
        · rw [if_pos hj]
          omega
        · rw [if_neg hj]
          have := hJa (j - 1)
          by_cases hm0 : m = 0
          · rw [if_pos hm0] at this
            rw [hm0, if_pos rfl]
            omega
          · rw [if_neg hm0] at this
            rw [if_neg hm0]
            omega
      have hkd : (if m = 0 then 0 else J (m - 1)) + 1 = eligRun s m := by
        rw [eligRun_not_pop hpop]
        rcases hJd with h0 | hd
        · rw [if_pos h0, h0, if_pos rfl]
        · by_cases hm0 : m = 0
          · rw [if_pos hm0, hm0, if_pos rfl]
          · rw [if_neg hm0, if_neg hm0, hd]
      have hdiag : m ∈ positionsOf s (s.getD m ' ') :=
        mem_positionsOf.mpr ⟨hmlt, rfl⟩
      have hkb : ∀ j ∈ positionsOf s (s.getD m ' '),
          (if j = 0 then 0 else J (j - 1)) + 1 ≤ eligRun s j := by
        intro j hj
        obtain ⟨hjn, hjc⟩ := mem_positionsOf.mp hj
        have hjpop : ¬ popChar s (s.getD j ' ') := by
          rw [hjc]
          exact hpop
        rw [eligRun_not_pop hjpop]
        by_cases hj0 : j = 0
        · rw [if_pos hj0]
          omega
        · rw [if_neg hj0, if_neg hj0]
          have := hJb (j - 1)
          omega
      have hpre := innerPreE s m J hmlt hka hkd (positionsOf s (s.getD m ' '))
        (fun _ => 0) b1 b3 (positionsOf_pairwise s _)
        (fun j hj => (mem_positionsOf.mp hj).1) hdiag hkb
        (fun j hj hji => hC j hji)
        (fun j => Nat.zero_le _) (fun j => Nat.zero_le _) hsum
      obtain ⟨c1, c3, hbest, hsum', hrun, hb3, hdiag', hja, hjb⟩ := hpre
      rw [outerLoop, b2jOf_not_pop hpop, hbest]
      refine ih (m + 1) _ c1 c3 (by omega) ?_ hjb (Or.inr ?_) ?_ hsum'
      · intro x
        rw [if_neg (Nat.succ_ne_zero m), Nat.add_sub_cancel]
        exact hja x
      · rw [Nat.add_sub_cancel]
        exact hdiag'
      · intro j hj
        rcases Nat.lt_succ_iff_lt_or_eq.mp hj with h | h
        · exact le_trans (hC j h) hb3
        · subst h
          exact hrun

/-- A diagonal block extends downwards through the identical strings all
the way to position 0. -/
theorem extendLower_diag (s : List Char) :
    ∀ (b1 b3 : Nat), extendLower s s 0 0 b1 (b1, b1, b3) = (0, 0, b3 + b1) := by
  intro b1
  induction b1 with
  | zero => intro b3; rfl
  | succ t ih =>
    intro b3
    rw [extendLower, if_pos ⟨Nat.succ_pos t, Nat.succ_pos t, beq_self_eq_true _⟩]
    simp only [Nat.add_sub_cancel]
    rw [ih (b3 + 1)]
    have : b3 + 1 + t = b3 + (t + 1) := by omega
    rw [this]

/-- A diagonal block anchored at 0 extends upwards through the identical
strings all the way to the end. -/
theorem extendUpper_diag (s : List Char) :
    ∀ (fuel k : Nat), s.length ≤ k + fuel → k ≤ s.length →
      extendUpper s s s.length s.length fuel (0, 0, k) = (0, 0, s.length) := by
  intro fuel
  induction fuel with
  | zero =>
    intro k h1 h2
    rw [show k = s.length by omega]
    rfl
  | succ t ih =>
    intro k h1 h2
    by_cases hk : k < s.length
    · rw [extendUpper, if_pos ⟨by omega, by omega, beq_self_eq_true _⟩]
      exact ih (k + 1) (by omega) (by omega)
    · rw [extendUpper, if_neg (fun h => absurd h.1 (by omega)),
        show k = s.length by omega]

/-- find_longest_match on two copies of ANY string returns the whole
string as one block: the main loop's best is always diagonal, and the
extension loops (which compare characters directly, ignoring autojunk)
extend any diagonal block to the full string. -/
theorem flm_self (s : List Char) :
    find_longest_match s s 0 s.length 0 s.length = (0, 0, s.length) := by
  obtain ⟨c1, c3, hmain, hsum⟩ := outerDiagE s s.length 0 (fun _ => 0) 0 0
    (by omega) (fun x => Nat.le_refl _) (fun x => Nat.zero_le _) (Or.inl rfl)
    (fun j hj => absurd hj (Nat.not_lt_zero j)) (Nat.zero_le _)
  simp only [find_longest_match, Nat.sub_zero]
  rw [hmain]
  have hlow : extendLower s s 0 0 (c1, c1, c3).1 (c1, c1, c3) = (0, 0, c3 + c1) :=
    extendLower_diag s c1 c3
  rw [hlow]
  exact extendUpper_diag s s.length (c3 + c1) (by omega) (by omega)

/-- The matching-block total on two copies of any string is the whole
length. -/
theorem matchesOf_self (s : List Char) : matchesOf s s = s.length := by
  rcases eq_or_ne s [] with rfl | hne
  · rfl
  · have hlen : s.length ≠ 0 := fun h => hne (List.length_eq_zero.mp h)
    rw [matchesOf, matchesAux, flm_self s]
    rw [if_neg (by simpa using hlen)]
    rw [if_neg (fun h => by simp at h), if_neg (fun h => by simp at h)]
    simp

/-- SequenceMatcher.ratio of any string against itself is exactly 1. -/
theorem ratio_self (s : List Char) : ratio s s = 1 := by
  rcases eq_or_ne s [] with rfl | hne
  · rfl
  · have hlen : s.length ≠ 0 := fun h => hne (List.length_eq_zero.mp h)
    rw [ratio, if_neg (by omega), matchesOf_self s, Rat.mkRat_eq_div]
    push_cast
    rw [show (2 : ℚ) * s.length = s.length + s.length by ring]
    exact div_self (by positivity)

/-- title_similarity of any title with itself is 1. -/
theorem title_similarity_self (t : String) : title_similarity t t = 1 := by
  rw [title_similarity]
  exact ratio_self _

/-- Everything the dedup loop emits is pairwise non-duplicate (each later
element matches no earlier one). -/
theorem freshList_pairwise (threshold : ℚ) :
    ∀ {uniq zs : List Article}, FreshList threshold uniq zs →
      (∀ u ∈ uniq, ∀ b ∈ zs, isDupOf threshold b u = false) ∧
        zs.Pairwise (fun x y => isDupOf threshold y x = false) := by
  intro uniq zs h
  induction h with
  | nil u => exact ⟨fun u hu b hb => absurd hb (List.not_mem_nil b), List.Pairwise.nil⟩
  | cons u a rest hnew htail ih =>
    have hany : ∀ kept ∈ u, isDupOf threshold a kept = false := by
      intro kept hk
      have := List.any_eq_false.mp hnew
      simpa using this kept hk
    refine ⟨?_, ?_⟩
    · intro x hx b hb
      rcases List.mem_cons.mp hb with rfl | hb'
      · exact hany x hx
      · exact ih.1 x (List.mem_append_left _ hx) b hb'
    · refine List.pairwise_cons.mpr ⟨?_, ih.2⟩
      intro b hb
      exact ih.1 a (List.mem_append_right _ (List.mem_singleton_self a)) b hb

set_option maxRecDepth 40000 in
/-- C4 counterexample: at the configured threshold, with candidates k
(title "aaaa", content "xxxxxxxxxx"), a1 (title "aabb", same content) and
a2 (title "aabb", empty content), a1 and a2 have identical titles, yet
deduplicate keeps a2, the SECOND of the pair: a1 falls to the borderline
content check against k (title ratio 0.5, content ratio 1), while a2's
empty snippet skips that check.  So the claim that the first of two
identical-titled articles is the one kept is false. -/
theorem dedup_keeps_second_not_first :
    deduplicate [⟨"aaaa", "", "xxxxxxxxxx", none, none, none⟩,
                 ⟨"aabb", "", "xxxxxxxxxx", none, none, none⟩,
                 ⟨"aabb", "", "", none, none, none⟩] =
      [⟨"aaaa", "", "xxxxxxxxxx", none, none, none⟩,
       ⟨"aabb", "", "", none, none, none⟩]
    ∧ (⟨"aabb", "", "xxxxxxxxxx", none, none, none⟩ : Article).title =
        (⟨"aabb", "", "", none, none, none⟩ : Article).title
    ∧ (⟨"aabb", "", "xxxxxxxxxx", none, none, none⟩ : Article) ∉
        deduplicate [⟨"aaaa", "", "xxxxxxxxxx", none, none, none⟩,
                     ⟨"aabb", "", "xxxxxxxxxx", none, none, none⟩,
                     ⟨"aabb", "", "", none, none, none⟩]
    ∧ (⟨"aabb", "", "", none, none, none⟩ : Article) ∈
        deduplicate [⟨"aaaa", "", "xxxxxxxxxx", none, none, none⟩,
                     ⟨"aabb", "", "xxxxxxxxxx", none, none, none⟩,
                     ⟨"aabb", "", "", none, none, none⟩] := by
  exact ⟨by decide, rfl, by decide, by decide⟩

/-- C4 (amended): for every threshold at most 1, the deduplicated output
never holds two articles with identical titles: of two identical-titled
inputs at most one survives, though the survivor may be the later one
(the earlier one may itself fall to the borderline content check against
a previously kept article). -/
theorem dedup_identical_titles_amended (T : ℚ) (hT : T ≤ 1) (articles : List Article) :
    (dedupWith T articles).Pairwise (fun x y => x.title ≠ y.title) := by
  obtain ⟨zs, hz, hf⟩ := dedupGo_fresh T articles []
  have h1 : dedupWith T articles = zs := by simpa [dedupWith] using hz
  rw [h1]
  refine (freshList_pairwise T hf).2.imp ?_
  intro x y hdup heq
  have hsim : title_similarity y.title x.title = 1 := by
    rw [heq]
    exact title_similarity_self y.title
  have hdup' : isDupOf T y x = true := by
    rw [isDupOf]
    simp only [hsim]
    rw [if_pos hT]
  rw [hdup'] at hdup
  simp at hdup

/-- Witness for the amended C4 at threshold 1 and a concrete list. -/
theorem dedup_identical_titles_amended_witness :
    (1 : ℚ) ≤ 1 ∧
    (dedupWith 1 [⟨"t", "", "", none, none, none⟩]).Pairwise
      (fun x y => x.title ≠ y.title) :=
  ⟨le_refl 1, dedup_identical_titles_amended 1 (le_refl 1)
    [⟨"t", "", "", none, none, none⟩]⟩

/-! ### What the core changes on an Article (C9) -/

/-- Everything the Selector returns is an article of the input list,
unchanged as a value. -/
theorem select_stories_subset (today : Nat) (articles : List Article)
    (history : History) (count : Nat) :
    ∀ x ∈ select_stories today articles history count, x ∈ articles := by
  intro x hx
  have hperm := sort_scored_perm today articles
  obtain ⟨ex, he, hsub⟩ := strictLoop_shape history count (sort_scored today articles) [] []
  have hstrict_sub : ∀ y ∈ strictLoop history count (sort_scored today articles) [] [],
      y ∈ articles := by
    intro y hy
    rw [he, List.nil_append] at hy
    exact hperm.mem_iff.mp (hsub.subset hy)
  by_cases hshort : (strictLoop history count (sort_scored today articles) [] []).length < count
  · rw [show select_stories today articles history count =
        (relaxedLoop count (sort_scored today articles)
          (strictLoop history count (sort_scored today articles) [] [])).take count by
      simp only [select_stories, if_pos hshort]] at hx
    have hx2 := List.mem_of_mem_take hx
    obtain ⟨ex2, he2, hsub2⟩ := relaxedLoop_shape count (sort_scored today articles)
      (strictLoop history count (sort_scored today articles) [] [])
    rw [he2] at hx2
    rcases List.mem_append.mp hx2 with h | h
    · exact hstrict_sub x h
    · exact hperm.mem_iff.mp (hsub2.subset h)
  · rw [show select_stories today articles history count =
        (strictLoop history count (sort_scored today articles) [] []).take count by
      simp only [select_stories, if_neg hshort]] at hx
    exact hstrict_sub x (List.mem_of_mem_take hx)

/-- The per-article persona choice always lands on a configured persona
name. -/
theorem choose_persona_mem (history : History) (used : List String)
    (category : String) : choose_persona history used category ∈ persona_names := by
  unfold choose_persona
  cases hpick : (pickBest history used category).1 with
  | some b =>
    exact (pickBestGo_mem history used category PERSONAS (none, -1)
      (fun b' hb' => by simp at hb') (fun _ hi => List.mem_map_of_mem _ hi) b hpick).2
  | none =>
    cases hfind : persona_names.find? (fun n => !(used.contains n)) with
    | some b => exact List.mem_of_find?_eq_some hfind
    | none =>
      show persona_names.headD "" ∈ persona_names
      decide

/-- Every assignment the persona loop emits is a configured persona name. -/
theorem assignLoop_names (history : History) :
    ∀ (arts : List Article) (acc used : List String),
      (∀ p ∈ acc, p ∈ persona_names) →
      ∀ p ∈ assignLoop history arts acc used, p ∈ persona_names := by
  intro arts
  induction arts with
  | nil => intro acc used hacc p hp; exact hacc p (by simpa [assignLoop] using hp)
  | cons a rest ih =>
    intro acc used hacc p hp
    refine ih _ _ ?_ p hp
    intro q hq
    rcases List.mem_append.mp hq with h | h
    · exact hacc q h
    · rcases List.mem_singleton.mp h with rfl
      exact choose_persona_mem history used (a.category.getD "")

/-- C9 counterexample: process_articles rewrites the Article's title field
in place (the whitespace-collapsing clean of the processing step), a
mutation other than recording a persona; no step of the core records a
persona on the Article at all. -/
theorem process_articles_mutates_fields :
    (process_articles [⟨"a  b", "x", "y", none, none, none⟩]).map Article.title =
      ["a b"]
    ∧ (process_articlesS [⟨"a  b", "x", "y", none, none, none⟩]).2 =
        [⟨"a b", "x", "y", none, none, none⟩]
    ∧ (⟨"a  b", "x", "y", none, none, none⟩ : Article).title ≠ "a b" := by
  exact ⟨by decide, by decide, by decide⟩

/-- C9 (amended): the cleaning step rewrites exactly title, summary and
content to their stripped forms and leaves category, source and
total_score untouched; selection returns input articles unchanged as
values; persona assignment yields only persona names, recorded apart from
the articles (no Article field carries the persona). -/
theorem core_article_frame (a : Article) (today : Nat) (articles : List Article)
    (history : History) (count : Nat) :
    (clean_article a).category = a.category
    ∧ (clean_article a).source = a.source
    ∧ (clean_article a).total_score = a.total_score
    ∧ (clean_article a).title = strip_html a.title
    ∧ (clean_article a).summary = strip_html a.summary
    ∧ (clean_article a).content = strip_html a.content
    ∧ (process_articlesS articles).2 = articles.map clean_article
    ∧ (select_stories today articles history count).all
        (fun x => decide (x ∈ articles)) = true
    ∧ (assign_personas articles history).all
        (fun p => decide (p ∈ persona_names)) = true := by
  refine ⟨rfl, rfl, rfl, rfl, rfl, rfl, rfl, ?_, ?_⟩
  · rw [List.all_eq_true]
    intro x hx
    exact decide_eq_true (select_stories_subset today articles history count x hx)
  · rw [List.all_eq_true]
    intro p hp
    exact decide_eq_true (assignLoop_names history articles [] [] (by simp) p hp)

end Engine
